import Mathlib

/-!
Verification development for the megaMICMONSTER bulk text-to-speech pipeline.

The repository has two source files:
* `src/main.py` — a browser-driven worker: it reads one spreadsheet per
  worker, iterates rows, submits each non-blank row to a web UI, waits for a
  downloaded artifact (`wait_for_file`), renames it to a deterministic
  per-row target (with a collision-avoiding ` (i)` suffix) and records the
  filename into the sheet, finally writing a sibling output spreadsheet.
* `src/script.py` — an API-driven variant: it loads the sentence column,
  splits it into contiguous static batches across `MAX_WORKERS` workers, and
  for each sentence calls `MicMonsterAPI.generate_audio`, which posts to an
  HTTP endpoint and decodes the response (JSON with base64 audio / body as
  base64 / raw bytes).

This file shallowly embeds the part of the code the claims are about.
Strings are modelled as `List Char`; the filesystem, the HTTP exchange and
the browser are external collaborators and enter as explicit state or
oracle parameters.  Pure library helpers the code relies on
(`os.path.splitext`, `os.path.join` with `/` as separator, decimal
formatting of integers, `str.strip`, `str.lower`) are modelled faithfully
from their CPython semantics.
-/

namespace MicMonster

abbrev Chars := List Char

/-- ASCII whitespace stripped by Python `str.strip()`. -/
def pyWs (c : Char) : Bool :=
  c == ' ' || c == '\t' || c == '\n' || c == '\x0d' || c == '\x0b' || c == '\x0c'

/-- Model of Python `str.strip()`: drop whitespace from both ends. -/
def pyStrip (s : Chars) : Chars :=
  ((s.dropWhile pyWs).reverse.dropWhile pyWs).reverse

/-- The character for decimal digit `d` (used with `d < 10`). -/
def digitChar (d : Nat) : Char := Char.ofNat (48 + d)

/-- Fuelled decimal rendering of a natural number (the fuel makes the
recursion structural; `natChars` supplies enough fuel). -/
def natCharsAux : Nat → Nat → Chars
  | 0, _ => []
  | fuel + 1, n =>
    if n < 10 then [digitChar n]
    else natCharsAux fuel (n / 10) ++ [digitChar (n % 10)]

/-- Decimal rendering of a natural number, as produced by Python string
formatting of a non-negative `int`. -/
def natChars (n : Nat) : Chars := natCharsAux (n + 1) n

/-- Decoder used to prove `natChars` injective. -/
def decodeDec (s : Chars) : Nat :=
  s.foldl (fun a c => a * 10 + (c.toNat - 48)) 0

/-- Python `f"{n:04d}"` for a natural number: zero-pad to width 4. -/
def pad4 (n : Nat) : Chars :=
  List.replicate (4 - (natChars n).length) '0' ++ natChars n

/-- Path separator (the development models POSIX paths, where `/` is the
only separator). -/
def isSep (c : Char) : Bool := c == '/'

/-- Index of the last character satisfying `p`, if any. -/
def lastIdxP (p : Char → Bool) : Chars → Option Nat
  | [] => none
  | c :: cs =>
    match lastIdxP p cs with
    | some i => some (i + 1)
    | none => if p c then some 0 else none

/-- Model of CPython `os.path.splitext`: split at the last dot, provided it
comes after the last separator and at least one character between the last
separator and that dot is not itself a dot (so leading-dot files keep their
name whole). -/
def splitext (path : Chars) : Chars × Chars :=
  match lastIdxP (fun c => c == '.') path with
  | none => (path, [])
  | some d =>
    let s : Nat :=
      match lastIdxP isSep path with
      | none => 0
      | some k => k + 1
    if s ≤ d ∧ ((List.range' s (d - s)).any fun k => path.getD k ' ' != '.') then
      (path.take d, path.drop d)
    else (path, [])

/-- Model of `posixpath.join` for a single extra component. -/
def joinP (d n : Chars) : Chars :=
  if n.head? = some '/' then n
  else if d = [] ∨ d.getLast? = some '/' then d ++ n
  else d ++ '/' :: n

/-- Model of `pathlib.PurePath.stem` on a final path component: the name
without its last suffix, where a suffix needs an inner dot that is neither
leading nor trailing. -/
def pathStem (name : Chars) : Chars :=
  match lastIdxP (fun c => c == '.') name with
  | none => name
  | some i => if 0 < i ∧ i < name.length - 1 then name.take i else name

/-- Python `str.lower()` restricted to ASCII letters, which is all the code
applies it to (file extensions). -/
def lowerL (s : Chars) : Chars := s.map Char.toLower

/-! ### Job splitter (`src/script.py`, `main_parallel`, lines 186-200)

`sentences_per_worker = len(sentences) // MAX_WORKERS`; worker `i` (for
`i` in `range(MAX_WORKERS)`) takes indices `[i*spw, i*spw+spw)`, except the
last worker, which takes everything up to `len(sentences)`. -/

/-- The contiguous index range handed to worker `i` out of `W` when
splitting `n` sentences, exactly as computed in `main_parallel`. -/
def batchIdxs (n W i : Nat) : List Nat :=
  let spw := n / W
  let s := i * spw
  let e := if i = W - 1 then n else s + spw
  List.range' s (e - s)

/-- The batch actually built by the code: `(idx + 1, sentences[idx])`
pairs over the worker's index range. -/
def batchPairs (sentences : List Chars) (W i : Nat) : List (Nat × Chars) :=
  (batchIdxs sentences.length W i).map fun idx => (idx + 1, sentences.getD idx [])

/-- `df.iloc[:, 0].dropna().tolist()` from `main_parallel`: missing cells
are dropped, every present string (including whitespace-only ones) is kept. -/
def loadSentences (col : List (Option Chars)) : List Chars :=
  col.filterMap id

/-! ### Worker loop over one spreadsheet (`src/main.py`, `process_excel`)

The spreadsheet is a header list plus a rectangular row table; a cell is
`none` for a missing value (pandas `NaN`) and `some s` for text.  The
browser interaction producing one downloaded artifact per row is an
external collaborator and is abstracted by an oracle
`env : Nat → Except Unit Chars`: `.ok dld` means the submission, convert
and download steps of that row yielded the file `dld` in the worker's
directory, `.error ()` means some step of the row raised.  The worker
directory content is carried as the list of existing paths. -/

/-- A spreadsheet cell: `none` models pandas `NaN`. -/
abbrev Cell := Option Chars

/-- An in-memory spreadsheet: column names plus rows of cells. -/
structure Frame where
  cols : List Chars
  rows : List (List Cell)
deriving DecidableEq, Repr

/-- Insert an element at an index, as `pandas.DataFrame.insert` places a
column (no-op past the end, which the theorems never rely on). -/
def insertAt : Nat → α → List α → List α
  | 0, a, l => a :: l
  | _ + 1, _, [] => []
  | n + 1, a, x :: xs => x :: insertAt n a xs

/-- `INPUT_COL_INDEX + 1` from the configuration. -/
def outColIndex : Nat := 1

/-- The header of the added column. -/
def OUTPUT_COL : Chars := ("output_filename").data

/-- Lines 181-183 of `main.py`: `if out_col_index >= len(df.columns):
df.insert(out_col_index, "output_filename", "")`. -/
def insertOutputCol (f : Frame) : Frame :=
  if f.cols.length ≤ outColIndex then
    ⟨insertAt outColIndex OUTPUT_COL f.cols,
     f.rows.map fun r => insertAt outColIndex (some []) r⟩
  else f

/-- Row blank test, line 194: `pd.isna(text) or str(text).strip() == ""`. -/
def isBlankCell (c : Cell) : Bool :=
  match c with
  | none => true
  | some s => (pyStrip s).isEmpty

/-- `FILENAME_PATTERN.format(sheet=..., row=row_idx + 1)` joined onto the
worker directory (lines 234-235). -/
def computeTarget0 (dirD sheet : Chars) (rowIdx : Nat) : Chars :=
  joinP dirD (sheet ++ ("_row").data ++ pad4 (rowIdx + 1) ++ (".mp3").data)

/-- The default extension used when the artifact name has none. -/
def defaultExt : Chars := (".mp3").data

/-- The extension the code derives from a downloaded artifact:
`os.path.splitext(downloaded)[1].lower() or ".mp3"`. -/
def artifactExt (dld : Chars) : Chars :=
  if (lowerL (splitext dld).2).isEmpty then defaultExt else lowerL (splitext dld).2

/-- Lines 236-238: compute the artifact extension (lower-cased, defaulting
to `.mp3`) and splice it onto the target when it differs. -/
def adjustExt (target dld : Chars) : Chars :=
  let ext := artifactExt dld
  if ext ≠ lowerL (splitext target).2 then (splitext target).1 ++ ext else target

/-- One collision candidate `f"{base_no_ext} ({i}){ext_only}"`. -/
def cand (b e : Chars) (k : Nat) : Chars :=
  b ++ (" (").data ++ natChars k ++ (")").data ++ e

/-- Lines 240-244: `while os.path.exists(target_path): target_path =
f"{base_no_ext} ({i}){ext_only}"; i += 1`.  The fuel makes the loop
structural; `resolveTarget_some` shows `existing.length + 1` fuel always
suffices, so the `none` case is unreachable at the call site. -/
def resolveTarget (existing : List Chars) : Nat → Chars → Chars → Chars → Nat → Option Chars
  | 0, _, _, _, _ => none
  | fuel + 1, b, e, target, i =>
    if target ∈ existing then resolveTarget existing fuel b e (cand b e i) (i + 1)
    else some target

/-- The candidate inspected at step `k` of the collision loop started on
`target` with counter `i`. -/
def candSeq (b e target : Chars) (i : Nat) : Nat → Chars
  | 0 => target
  | k + 1 => cand b e (i + k)

/-- The full rename-target computation for one row (lines 234-244), given
the set of paths existing when the collision loop runs. -/
def renameTarget (existing : List Chars) (dirD sheet : Chars) (rowIdx : Nat)
    (dld : Chars) : Chars :=
  (resolveTarget existing (existing.length + 1)
    (splitext (adjustExt (computeTarget0 dirD sheet rowIdx) dld)).1
    (splitext (adjustExt (computeTarget0 dirD sheet rowIdx) dld)).2
    (adjustExt (computeTarget0 dirD sheet rowIdx) dld) 1).getD
    (adjustExt (computeTarget0 dirD sheet rowIdx) dld)

/-- Terminal state of one row job. -/
inductive Outcome where
  | skipped
  | success (p : Chars)
  | failed
deriving DecidableEq, Repr

/-- Worker state while looping: the row table and the worker directory's
file set. -/
abbrev WState := List (List Cell) × List Chars

/-- One iteration of the row loop (lines 192-251): skip blank rows; on an
oracle error mark the row failed and leave all state untouched; otherwise
rename the downloaded artifact to the collision-free target (`shutil.move`
removes the source and creates the target) and write the target into
column `outColIndex` of the row. -/
def stepRow (dirD sheet : Chars) (env : Nat → Except Unit Chars)
    (st : WState) (idx : Nat) : WState × Outcome :=
  if isBlankCell ((st.1.getD idx []).getD 0 none) then (st, .skipped)
  else
    match env idx with
    | .error _ => (st, .failed)
    | .ok dld =>
      ((st.1.set idx ((st.1.getD idx []).set outColIndex
          (some (renameTarget (dld :: st.2) dirD sheet idx dld))),
        st.2 ++ [renameTarget (dld :: st.2) dirD sheet idx dld]),
       .success (renameTarget (dld :: st.2) dirD sheet idx dld))

/-- Run the row loop over a list of row indices, collecting outcomes in
order. -/
def runRows (dirD sheet : Chars) (env : Nat → Except Unit Chars) :
    List Nat → WState → WState × List Outcome
  | [], st => (st, [])
  | idx :: rest, st =>
    ((runRows dirD sheet env rest (stepRow dirD sheet env st idx).1).1,
     (stepRow dirD sheet env st idx).2
       :: (runRows dirD sheet env rest (stepRow dirD sheet env st idx).1).2)

/-- `OUTPUT_SUFFIX` from the configuration. -/
def OUTPUT_SUFFIX : Chars := ("_with_filenames.xlsx").data

/-- Result of one shard: the final table, the worker directory content,
the per-row outcomes, and the name of the spreadsheet file written at the
end. -/
structure ExcelResult where
  frame : Frame
  fsL : List Chars
  outcomes : List Outcome
  outExcel : Chars
deriving DecidableEq, Repr

/-- `process_excel` of `src/main.py`, shallowly embedded: read the frame,
append the output column if absent, loop over all rows, and finally write
the table to `Path(excel_path).with_name(stem + OUTPUT_SUFFIX)`.
`excelName` is the basename of the input file, `dirD` the worker's private
download directory, `fs0` its initial content. -/
def process_excel (excelName dirD : Chars) (f : Frame)
    (env : Nat → Except Unit Chars) (fs0 : List Chars) : ExcelResult :=
  ⟨⟨(insertOutputCol f).cols,
    (runRows dirD (pathStem excelName) env (List.range (insertOutputCol f).rows.length)
      ((insertOutputCol f).rows, fs0)).1.1⟩,
   (runRows dirD (pathStem excelName) env (List.range (insertOutputCol f).rows.length)
      ((insertOutputCol f).rows, fs0)).1.2,
   (runRows dirD (pathStem excelName) env (List.range (insertOutputCol f).rows.length)
      ((insertOutputCol f).rows, fs0)).2,
   pathStem excelName ++ OUTPUT_SUFFIX⟩

/-! ### Completion detector (`src/main.py`, `wait_for_file`, lines 115-124)

The directory's evolution over time is an oracle `dir : Nat → List DirFile`
giving the files present `t` seconds after the wait began; `dir 0` is the
snapshot taken before the first sleep.  The loop wakes at `t = 1, 2, …`
and gives up after `timeout` polls. -/

/-- A directory entry: path and modification time. -/
structure DirFile where
  name : Chars
  mtime : Nat
deriving DecidableEq, Repr

/-- The transient in-progress suffix excluded by the detector. -/
def crdownload : Chars := (".crdownload").data

/-- `[f for f in current - observed if not f.endswith(".crdownload")]`. -/
def newStable (observed : List Chars) (cur : List DirFile) : List DirFile :=
  cur.filter fun f => !(observed.contains f.name) && !(crdownload.isSuffixOf f.name)

/-- Python `max(new_files, key=os.path.getmtime)`: the first element of
maximal modification time. -/
def pyMax : List DirFile → Option DirFile
  | [] => none
  | x :: xs => some (xs.foldl (fun a b => if a.mtime < b.mtime then b else a) x)

/-- The polling loop of `wait_for_file`, one recursive step per 1-second
poll. -/
def waitGo (dir : Nat → List DirFile) (observed : List Chars) :
    Nat → Nat → Except Unit DirFile
  | 0, _ => .error ()
  | fuel + 1, t =>
    match pyMax (newStable observed (dir t)) with
    | some f => .ok f
    | none => waitGo dir observed fuel (t + 1)

/-- `wait_for_file`: snapshot the directory at the start of the wait, then
poll every second up to `timeout` times; raise `TimeoutError` (modelled by
`.error ()`) if no stable new file appears. -/
def wait_for_file (dir : Nat → List DirFile) (timeout : Nat) : Except Unit DirFile :=
  waitGo dir ((dir 0).map DirFile.name) timeout 1

/-! ### API conversion client (`src/script.py`, `MicMonsterAPI.generate_audio`)

The HTTP exchange and the Python `json` / `base64` libraries are external
collaborators; one call's view of them is packaged in `ApiResponse`:
whether `session.post` raised, the status code, `response.text`, the
outcome of `response.json()` (`none` models `json.JSONDecodeError`), the
outcome of `base64.b64decode(response.text)` (`none` models a decode
exception), and the raw `response.content` bytes.  An extra oracle
`b64dec` gives the outcome of `base64.b64decode` on the `audioContent`
field.  The function's only side effect is at most one file write, whose
name and bytes are returned. -/

/-- The value of `response.json()` as far as `generate_audio` inspects it:
a JSON object (with the string values of its fields), or an array/string —
for which `'audioContent' in response_data` is a membership/substring test
recorded in `hasKey`, raising `TypeError` at the subscript when true — or
a primitive, for which the `in` test itself raises `TypeError`. -/
inductive PyJson where
  | dict (fields : List (Chars × Chars))
  | arrOrStr (hasKey : Bool)
  | prim
deriving DecidableEq, Repr

/-- One call's view of the HTTP exchange and the decoder libraries. -/
structure ApiResponse where
  exn : Bool
  status : Nat
  text : Chars
  jsonVal : Option PyJson
  b64Text : Option (List Nat)
  content : List Nat
deriving DecidableEq, Repr

/-- Python `True` / `False` / implicit `None` return values; `False` and
`None` are both falsy for the caller. -/
inductive PyRet where
  | tru
  | fls
  | nne
deriving DecidableEq, Repr

/-- Truthiness of the returned value. -/
def isTruthy : PyRet → Bool
  | .tru => true
  | _ => false

/-- First association-list hit, as Python `dict` subscript after an `in`
test. -/
def lookupKey (k : Chars) : List (Chars × Chars) → Option Chars
  | [] => none
  | (k', v) :: rest => if k' = k then some v else lookupKey k rest

/-- The deterministic artifact name `f"sentence_{sentence_num:04d}.mp3"`. -/
def sentenceFile (n : Nat) : Chars :=
  ("sentence_").data ++ pad4 n ++ (".mp3").data

/-- `MicMonsterAPI.generate_audio` (lines 59-127).  `text` is the sentence
sent in the request payload (the response to it is the oracle `r`); the
result is the Python return value together with the file write performed,
if any.  Control flow mirrors the source: the outer `try` converts any
escaping exception (`requests` errors, `binascii` errors from the
`audioContent` decode, `TypeError` from subscripting a non-dict) into
`False`; a JSON object without `audioContent` falls off the end of the
function and returns `None`. -/
def generate_audio (b64dec : Chars → Option (List Nat)) (r : ApiResponse)
    (text : Chars) (n : Nat) : PyRet × Option (Chars × List Nat) :=
  if r.exn then (.fls, none)
  else if r.status = 200 then
    if (pyStrip r.text).isEmpty then (.fls, none)
    else
      match r.jsonVal with
      | some (.dict fields) =>
        match lookupKey ("audioContent").data fields with
        | some v =>
          match b64dec v with
          | some bytes => (.tru, some (sentenceFile n, bytes))
          | none => (.fls, none)
        | none => (.nne, none)
      | some (.arrOrStr hasKey) => if hasKey then (.fls, none) else (.nne, none)
      | some .prim => (.fls, none)
      | none =>
        match r.b64Text with
        | some bytes => (.tru, some (sentenceFile n, bytes))
        | none => (.tru, some (sentenceFile n, r.content))
  else (.fls, none)

/-- Apply an optional file write to a filesystem map; writing with `open(…,
'wb')` replaces any existing file of that name. -/
def applyWrite (fs : Chars → Option (List Nat)) :
    Option (Chars × List Nat) → Chars → Option (List Nat)
  | none => fs
  | some (nm, b) => fun p => if p = nm then some b else fs p

/-! ### Formalised claim statements used by counterexamples -/

/-- Claim C2 as stated: the collision loop always yields a path distinct
from any colliding target, and no existing file is ever overwritten by
writing an artifact — in particular the API variant's artifact write never
replaces the content of an existing file. -/
def C2_claimStatement : Prop :=
  (∀ (existing : List Chars) (target : Chars),
    ∃ r, resolveTarget existing (existing.length + 1)
        (splitext target).1 (splitext target).2 target 1 = some r ∧
      r ∉ existing ∧ (target ∈ existing → r ≠ target)) ∧
  (∀ (b64dec : Chars → Option (List Nat)) (r : ApiResponse) (text : Chars) (n : Nat)
      (fs : Chars → Option (List Nat)) (p : Chars),
    fs p ≠ none →
    applyWrite fs (generate_audio b64dec r text n).2 p = fs p)

/-- Claim C4 as stated: for every 200 response with a non-empty body the
decodes are tried in priority order JSON → whole-body base64 → raw bytes
and the first success wins, the row failing only when all three fail.
Writing raw bytes always succeeds, so the claim entails that such a call
is always truthy. -/
def C4_claimStatement : Prop :=
  ∀ (b64dec : Chars → Option (List Nat)) (r : ApiResponse) (text : Chars) (n : Nat),
    r.exn = false → r.status = 200 → (pyStrip r.text).isEmpty = false →
    isTruthy (generate_audio b64dec r text n).1 = true

/-- Claim C6 as stated, covering both variants: blank and whitespace-only
rows are skipped by the browser worker (cell untouched, no state change),
and the API variant never processes an empty, missing or whitespace-only
sentence. -/
def C6_claimStatement : Prop :=
  (∀ (dirD sheet : Chars) (env : Nat → Except Unit Chars) (st : WState) (idx : Nat),
    isBlankCell ((st.1.getD idx []).getD 0 none) = true →
    stepRow dirD sheet env st idx = (st, .skipped)) ∧
  (∀ (col : List (Option Chars)) (s : Chars),
    s ∈ loadSentences col → (pyStrip s).isEmpty = false)

/-- Claim C7 as stated: processing never changes a pre-existing data cell
that does not belong to a column named `output_filename` (original columns
other than the added filename column appear unchanged). -/
def C7_claimStatement : Prop :=
  ∀ (excelName dirD : Chars) (f : Frame) (env : Nat → Except Unit Chars)
    (fs0 : List Chars) (i j : Nat),
    j < f.cols.length → f.cols.getD j [] ≠ OUTPUT_COL →
    (((process_excel excelName dirD f env fs0).frame.rows.getD i []).getD j none)
      = ((f.rows.getD i []).getD j none)

/-! ### Concrete inputs for witnesses and counterexamples -/

/-- A two-column input frame whose second column holds data. -/
def frame2 : Frame :=
  ⟨[("text").data, ("extra").data],
   [[some ("hi").data, some ("keep").data]]⟩

/-- A one-column input frame with two non-blank rows. -/
def frame1 : Frame :=
  ⟨[("text").data],
   [[some ("hello").data], [some ("world").data]]⟩

/-- A one-column frame whose single row is whitespace-only. -/
def frameB : Frame :=
  ⟨[("text").data], [[some ("  ").data]]⟩

/-- An oracle that fails every row. -/
def envFail : Nat → Except Unit Chars := fun _ => .error ()

/-- An oracle that downloads `dl.mp3` for every row. -/
def envOk : Nat → Except Unit Chars := fun _ => .ok (("dl.mp3").data)

/-- A directory trace: empty snapshot, one stable file from second 1 on. -/
def dirTrace1 : Nat → List DirFile := fun t =>
  if t = 0 then [] else [⟨("a.mp3").data, 5⟩]

/-- A 200 response whose body is the JSON object with a single field
`"a"`, so `response.json()` succeeds but has no `audioContent`. -/
def respDictNoKey : ApiResponse :=
  ⟨false, 200, ("\x7b\x22a\x22: 1\x7d").data, some (.dict [(("a").data, ("1").data)]),
   some [], [123, 34, 97, 34, 58, 32, 49, 125]⟩

/-- A 200 response carrying base64 audio in a JSON `audioContent` field. -/
def respJsonAudio : ApiResponse :=
  ⟨false, 200, ("\x7b\x22audioContent\x22:\x22QUJD\x22\x7d").data,
   some (.dict [(("audioContent").data, ("QUJD").data)]),
   none, []⟩

/-- A base64 oracle that decodes `QUJD` to the bytes of `ABC` and rejects
everything else. -/
def b64dec1 : Chars → Option (List Nat) := fun s =>
  if s = ("QUJD").data then some [65, 66, 67] else none

/-- A filesystem that already holds an artifact named `sentence_0001.mp3`
with content `[9]`. -/
def fs1 : Chars → Option (List Nat) := fun p =>
  if p = sentenceFile 1 then some [9] else none

/-! ## Theorems -/

/-! ### C1: the static job split -/

theorem start_le_n {n W i : Nat} (hi : i ≤ W) : i * (n / W) ≤ n :=
  calc i * (n / W) ≤ W * (n / W) := Nat.mul_le_mul_right _ hi
    _ = n / W * W := Nat.mul_comm _ _
    _ ≤ n := Nat.div_mul_le_self n W

theorem batchIdxs_last (n W : Nat) :
    batchIdxs n W (W - 1) = List.range' ((W - 1) * (n / W)) (n - (W - 1) * (n / W)) := by
  unfold batchIdxs
  simp

theorem batchIdxs_notLast {n W i : Nat} (h : i ≠ W - 1) :
    batchIdxs n W i = List.range' (i * (n / W)) (n / W) := by
  unfold batchIdxs
  simp only [if_neg h, Nat.add_sub_cancel_left]

theorem bindBatch (n W : Nat) (hW : 0 < W) :
    ∀ k, k ≤ W → (List.range k).flatMap (batchIdxs n W) =
      List.range' 0 (if k = W then n else k * (n / W)) := by
  intro k
  induction k with
  | zero =>
    intro _
    have : (0 : Nat) ≠ W := Nat.ne_of_lt hW
    simp [this]
  | succ k ih =>
    intro hk
    have hkW : k < W := Nat.lt_of_succ_le hk
    rw [List.range_succ, List.flatMap_append, ih (Nat.le_of_lt hkW),
      if_neg (Nat.ne_of_lt hkW)]
    by_cases hlast : k + 1 = W
    · have hk1 : k = W - 1 := by omega
      rw [if_pos hlast]
      have hle : k * (n / W) ≤ n := start_le_n (Nat.le_of_lt hkW)
      simp only [List.flatMap_cons, List.flatMap_nil, List.append_nil]
      rw [hk1, batchIdxs_last, ← hk1]
      have := List.range'_append_1 0 (k * (n / W)) (n - k * (n / W))
      simp only [Nat.zero_add] at this
      rw [this]
      congr 1
      omega
    · have hne : k ≠ W - 1 := by omega
      rw [if_neg hlast]
      simp only [List.flatMap_cons, List.flatMap_nil, List.append_nil]
      rw [batchIdxs_notLast hne]
      have := List.range'_append_1 0 (k * (n / W)) (n / W)
      simp only [Nat.zero_add] at this
      rw [this, Nat.succ_mul]
      congr 1
      omega

theorem mem_batchIdxs_bounds {n W i j : Nat} (hi : i < W) (hj : j ∈ batchIdxs n W i) :
    i * (n / W) ≤ j ∧ j < n ∧ (i ≠ W - 1 → j < i * (n / W) + n / W) := by
  by_cases h : i = W - 1
  · subst h
    rw [batchIdxs_last, List.mem_range'_1] at hj
    have hle : (W - 1) * (n / W) ≤ n := start_le_n (Nat.sub_le _ _)
    refine ⟨hj.1, ?_, fun hc => absurd rfl hc⟩
    have := hj.2
    omega
  · rw [batchIdxs_notLast h, List.mem_range'_1] at hj
    refine ⟨hj.1, ?_, fun _ => hj.2⟩
    have hiW : i + 1 ≤ W := hi
    have : (i + 1) * (n / W) ≤ n := start_le_n hiW
    rw [Nat.succ_mul] at this
    omega

theorem batch_disjoint_lt {n W i₁ i₂ j : Nat} (h12 : i₁ < i₂) (h2 : i₂ < W)
    (hj1 : j ∈ batchIdxs n W i₁) (hj2 : j ∈ batchIdxs n W i₂) : False := by
  have hne : i₁ ≠ W - 1 := by omega
  have b1 := mem_batchIdxs_bounds (Nat.lt_trans h12 h2) hj1
  have b2 := mem_batchIdxs_bounds h2 hj2
  have hup : j < i₁ * (n / W) + n / W := b1.2.2 hne
  have hlo : i₂ * (n / W) ≤ j := b2.1
  have hstep : (i₁ + 1) * (n / W) ≤ i₂ * (n / W) := Nat.mul_le_mul_right _ h12
  rw [Nat.succ_mul] at hstep
  omega

/-- C1: for every non-empty sentence list (length `n`) and positive worker
count `W`, the static split of `main_parallel` produces contiguous index
ranges whose ordered concatenation is exactly `[0, …, n-1]` (so their
union is the full input set), which are pairwise disjoint, and the last
worker's batch absorbs the division remainder (`n / W + n % W` indices). -/
theorem C1_job_split (n W : Nat) (hn : 0 < n) (hW : 0 < W) :
    (List.range W).flatMap (batchIdxs n W) = List.range n ∧
    (∀ j, j < n → ∃ i, i < W ∧ j ∈ batchIdxs n W i) ∧
    (∀ i₁ i₂ j, i₁ < W → i₂ < W → i₁ ≠ i₂ →
      j ∈ batchIdxs n W i₁ → j ∉ batchIdxs n W i₂) ∧
    (batchIdxs n W (W - 1)).length = n / W + n % W := by
  have hbind : (List.range W).flatMap (batchIdxs n W) = List.range n := by
    rw [bindBatch n W hW W (Nat.le_refl W), if_pos rfl, List.range_eq_range']
  refine ⟨hbind, ?_, ?_, ?_⟩
  · intro j hj
    have : j ∈ List.range n := List.mem_range.2 hj
    rw [← hbind] at this
    rcases List.mem_flatMap.1 this with ⟨i, hi, hji⟩
    exact ⟨i, List.mem_range.1 hi, hji⟩
  · intro i₁ i₂ j h1 h2 hne hj1 hj2
    rcases Nat.lt_or_ge i₁ i₂ with h | h
    · exact batch_disjoint_lt h h2 hj1 hj2
    · have : i₂ < i₁ := Nat.lt_of_le_of_ne h (fun e => hne e.symm)
      exact batch_disjoint_lt this h1 hj2 hj1
  · rw [batchIdxs_last, List.length_range']
    have hdm : W * (n / W) + n % W = n := Nat.div_add_mod n W
    have hW1 : W - 1 + 1 = W := Nat.succ_pred_eq_of_pos hW
    have hsm : (W - 1) * (n / W) + n / W = W * (n / W) := by
      obtain ⟨w, rfl⟩ : ∃ w, W = w + 1 := ⟨W - 1, hW1.symm⟩
      simp [Nat.succ_mul]
    have hA : (W - 1) * (n / W) ≤ n := start_le_n (Nat.sub_le _ _)
    rw [Nat.sub_eq_iff_eq_add hA, Nat.add_comm (n / W + n % W) ((W - 1) * (n / W)),
      ← Nat.add_assoc, hsm, hdm]

/-- Witness for C1 at `n = 7`, `W = 3` (batches `[0,1]`, `[2,3]`,
`[4,5,6]`). -/
theorem C1_job_split_witness :
    (List.range 3).flatMap (batchIdxs 7 3) = List.range 7 ∧
    (∀ j, j < 7 → ∃ i, i < 3 ∧ j ∈ batchIdxs 7 3 i) ∧
    (∀ i₁ i₂ j, i₁ < 3 → i₂ < 3 → i₁ ≠ i₂ →
      j ∈ batchIdxs 7 3 i₁ → j ∉ batchIdxs 7 3 i₂) ∧
    (batchIdxs 7 3 (3 - 1)).length = 7 / 3 + 7 % 3 :=
  C1_job_split 7 3 (by decide) (by decide)

/-! ### Decimal rendering: shape and injectivity -/

theorem natCharsAux_fuel (n : Nat) : ∀ f, n < f → natCharsAux f n = natChars n := by
  induction n using Nat.strong_induction_on with
  | _ n ih =>
    intro f hf
    obtain ⟨f', rfl⟩ : ∃ f', f = f' + 1 := ⟨f - 1, by omega⟩
    by_cases h10 : n < 10
    · simp [natChars, natCharsAux, h10]
    · have hd : n / 10 < n := Nat.div_lt_self (by omega) (by omega)
      show natCharsAux (f' + 1) n = natCharsAux (n + 1) n
      simp only [natCharsAux, if_neg h10]
      rw [ih (n / 10) hd f' (by omega), ih (n / 10) hd n (by omega)]

theorem natChars_step {n : Nat} (h10 : ¬ n < 10) :
    natChars n = natChars (n / 10) ++ [digitChar (n % 10)] := by
  have hd : n / 10 < n := Nat.div_lt_self (by omega) (by omega)
  show natCharsAux (n + 1) n = _
  simp only [natCharsAux, if_neg h10]
  rw [natCharsAux_fuel (n / 10) n (by omega)]

theorem decodeDec_append_digit (xs : Chars) (c : Char) :
    decodeDec (xs ++ [c]) = decodeDec xs * 10 + (c.toNat - 48) := by
  unfold decodeDec
  rw [List.foldl_append]
  rfl

theorem digitChar_toNat {d : Nat} (h : d < 10) : (digitChar d).toNat - 48 = d := by
  interval_cases d <;> decide

theorem decodeDec_natChars (n : Nat) : decodeDec (natChars n) = n := by
  induction n using Nat.strong_induction_on with
  | _ n ih =>
    by_cases h10 : n < 10
    · interval_cases n <;> decide
    · have hd : n / 10 < n := Nat.div_lt_self (by omega) (by omega)
      rw [natChars_step h10, decodeDec_append_digit, ih (n / 10) hd,
        digitChar_toNat (Nat.mod_lt n (by omega))]
      omega

theorem natChars_inj {a b : Nat} (h : natChars a = natChars b) : a = b := by
  rw [← decodeDec_natChars a, h, decodeDec_natChars]

theorem natChars_ne_nil (n : Nat) : natChars n ≠ [] := by
  by_cases h10 : n < 10
  · simp [natChars, natCharsAux, h10]
  · rw [natChars_step h10]
    simp

theorem natChars_digits {n : Nat} : ∀ c ∈ natChars n, ∃ d, d < 10 ∧ c = digitChar d := by
  induction n using Nat.strong_induction_on with
  | _ n ih =>
    intro c hc
    by_cases h10 : n < 10
    · simp [natChars, natCharsAux, h10] at hc
      exact ⟨n, h10, hc⟩
    · rw [natChars_step h10] at hc
      rcases List.mem_append.1 hc with h | h
      · exact ih (n / 10) (Nat.div_lt_self (by omega) (by omega)) c h
      · simp at h
        exact ⟨n % 10, Nat.mod_lt n (by omega), h⟩

theorem digitChar_plain {d : Nat} (h : d < 10) :
    digitChar d ≠ '.' ∧ isSep (digitChar d) = false := by
  interval_cases d <;> decide

/-! ### C2: the collision-avoiding rename loop -/

theorem splitext_append (p : Chars) : (splitext p).1 ++ (splitext p).2 = p := by
  unfold splitext
  cases hL : lastIdxP (fun c => c == '.') p with
  | none => simp
  | some d =>
    dsimp only
    split
    · exact List.take_append_drop d p
    · simp

theorem cand_length (b e : Chars) (k : Nat) :
    (cand b e k).length = b.length + e.length + 3 + (natChars k).length := by
  simp [cand]
  omega

theorem cand_ne_base {b e target : Chars} (hbe : b ++ e = target) (k : Nat) :
    cand b e k ≠ target := by
  intro hc
  have h1 : (cand b e k).length = target.length := by rw [hc]
  have h2 : target.length = b.length + e.length := by
    rw [← hbe, List.length_append]
  have h3 : 0 < (natChars k).length :=
    List.length_pos.2 (natChars_ne_nil k)
  rw [cand_length] at h1
  omega

theorem cand_inj {b e : Chars} {i j : Nat} (h : cand b e i = cand b e j) : i = j := by
  unfold cand at h
  have h1 := List.append_cancel_right h
  have h2 := List.append_cancel_right h1
  have h3 := List.append_cancel_left h2
  exact natChars_inj h3

theorem candSeq_shift (b e target : Chars) (i k : Nat) :
    candSeq b e (cand b e i) (i + 1) k = candSeq b e target i (k + 1) := by
  cases k with
  | zero => simp [candSeq]
  | succ k =>
    show cand b e (i + 1 + k) = cand b e (i + (k + 1))
    congr 1
    omega

theorem candSeq_inj {b e target : Chars} (hbe : b ++ e = target) {x y : Nat}
    (h : candSeq b e target 1 x = candSeq b e target 1 y) : x = y := by
  cases x with
  | zero =>
    cases y with
    | zero => rfl
    | succ y => exact absurd h.symm (cand_ne_base hbe _)
  | succ x =>
    cases y with
    | zero => exact absurd h (cand_ne_base hbe _)
    | succ y =>
      have := cand_inj h
      omega

theorem resolveTarget_go (existing : List Chars) (b e : Chars) :
    ∀ (fuel i : Nat) (target : Chars),
      (∃ k, k < fuel ∧ candSeq b e target i k ∉ existing) →
      ∃ r k, resolveTarget existing fuel b e target i = some r ∧
        k < fuel ∧ r = candSeq b e target i k ∧ r ∉ existing ∧
        ∀ j, j < k → candSeq b e target i j ∈ existing := by
  intro fuel
  induction fuel with
  | zero =>
    rintro i target ⟨k, hk, -⟩
    exact absurd hk (Nat.not_lt_zero k)
  | succ fuel ih =>
    intro i target hex
    by_cases ht : target ∈ existing
    · have hex' : ∃ k, k < fuel ∧ candSeq b e (cand b e i) (i + 1) k ∉ existing := by
        obtain ⟨k, hk, hkn⟩ := hex
        match k with
        | 0 => exact absurd ht (by simpa [candSeq] using hkn)
        | k + 1 =>
          refine ⟨k, by omega, ?_⟩
          rw [candSeq_shift b e target i k]
          exact hkn
      obtain ⟨r, k, hr, hk, hrk, hrn, hmin⟩ := ih (i + 1) (cand b e i) hex'
      refine ⟨r, k + 1, ?_, by omega, ?_, hrn, ?_⟩
      · show resolveTarget existing (fuel + 1) b e target i = some r
        unfold resolveTarget
        rw [if_pos ht]
        exact hr
      · rw [← candSeq_shift b e target i k]
        exact hrk
      · intro j hj
        match j with
        | 0 => exact ht
        | j + 1 =>
          rw [← candSeq_shift b e target i j]
          exact hmin j (by omega)
    · refine ⟨target, 0, ?_, by omega, rfl, ht, by omega⟩
      unfold resolveTarget
      rw [if_neg ht]

theorem resolveTarget_suffFuel (existing : List Chars) (b e target : Chars)
    (hbe : b ++ e = target) :
    ∃ k, k < existing.length + 1 ∧ candSeq b e target 1 k ∉ existing := by
  by_contra hall
  push_neg at hall
  have hnd : ((List.range (existing.length + 1)).map (candSeq b e target 1)).Nodup := by
    refine List.Nodup.map_on ?_ (List.nodup_range _)
    intro x _ y _ hxy
    exact candSeq_inj hbe hxy
  have hsub : ∀ x ∈ (List.range (existing.length + 1)).map (candSeq b e target 1),
      x ∈ existing := by
    intro x hx
    obtain ⟨k, hk, rfl⟩ := List.mem_map.1 hx
    exact hall k (List.mem_range.1 hk)
  have h2 : ((List.range (existing.length + 1)).map (candSeq b e target 1)).toFinset.card
      = existing.length + 1 := by
    rw [List.toFinset_card_of_nodup hnd]
    simp
  have h3 : ((List.range (existing.length + 1)).map (candSeq b e target 1)).toFinset
      ⊆ existing.toFinset := fun x hx =>
    List.mem_toFinset.2 (hsub x (List.mem_toFinset.1 hx))
  have h4 : existing.toFinset.card ≤ existing.length := existing.toFinset_card_le
  have h5 := Finset.card_le_card h3
  omega

/-- C2: for every directory content and every computed target path that
already exists, the rename loop of `process_excel` terminates on a fresh
path obtained by splicing ` (k)` (for some counter `k ≥ 1`) between the
target's base name and extension; when the target is free it is kept
unchanged; in all cases the chosen path is not an existing file, so no
existing file is overwritten by moving the artifact onto it. -/
theorem C2_collision_resolution (existing : List Chars) (target : Chars) :
    ∃ r, resolveTarget existing (existing.length + 1)
        (splitext target).1 (splitext target).2 target 1 = some r ∧
      r ∉ existing ∧
      (target ∉ existing → r = target) ∧
      (target ∈ existing → r ≠ target ∧
        ∃ k, 1 ≤ k ∧ r = cand (splitext target).1 (splitext target).2 k) := by
  have hbe : (splitext target).1 ++ (splitext target).2 = target := splitext_append target
  obtain ⟨k0, hk0, hk0n⟩ := resolveTarget_suffFuel existing _ _ target hbe
  obtain ⟨r, k, hr, hk, hrk, hrn, hmin⟩ :=
    resolveTarget_go existing (splitext target).1 (splitext target).2
      (existing.length + 1) 1 target ⟨k0, hk0, hk0n⟩
  refine ⟨r, hr, hrn, ?_, ?_⟩
  · intro ht
    cases k with
    | zero => exact hrk
    | succ k' =>
      have h0 : candSeq (splitext target).1 (splitext target).2 target 1 0 ∈ existing :=
        hmin 0 (by omega)
      exact absurd h0 ht
  · intro ht
    cases k with
    | zero =>
      rw [hrk] at hrn
      exact absurd ht hrn
    | succ k' =>
      have hc : r = cand (splitext target).1 (splitext target).2 (1 + k') := hrk
      exact ⟨fun he => cand_ne_base hbe (1 + k') (he ▸ hc).symm, 1 + k', by omega, hc⟩

/-- Witness for C2: the target `a.mp3` already exists, so the loop picks
`a (1).mp3`. -/
theorem C2_collision_resolution_witness :
    ∃ r, resolveTarget [("a.mp3").data] (([("a.mp3").data] : List Chars).length + 1)
        (splitext ("a.mp3").data).1 (splitext ("a.mp3").data).2 ("a.mp3").data 1 = some r ∧
      r ∉ [("a.mp3").data] ∧
      (("a.mp3").data ∉ [("a.mp3").data] → r = ("a.mp3").data) ∧
      (("a.mp3").data ∈ [("a.mp3").data] → r ≠ ("a.mp3").data ∧
        ∃ k, 1 ≤ k ∧ r = cand (splitext ("a.mp3").data).1 (splitext ("a.mp3").data).2 k) :=
  C2_collision_resolution [("a.mp3").data] (("a.mp3").data)

/-! ### Structure of `splitext` and `pathStem` -/

theorem lastIdxP_append (p : Char → Bool) (a b : Chars) :
    lastIdxP p (a ++ b) = match lastIdxP p b with
      | some i => some (a.length + i)
      | none => lastIdxP p a := by
  induction a with
  | nil =>
    cases h : lastIdxP p b <;> simp [h, lastIdxP]
  | cons c a ih =>
    show (match lastIdxP p (a ++ b) with
      | some i => some (i + 1)
      | none => if p c then some 0 else none) = _
    rw [ih]
    cases h : lastIdxP p b with
    | some i =>
      simp only [List.length_cons]
      show some (a.length + i + 1) = some (a.length + 1 + i)
      rw [Nat.add_right_comm]
    | none => rfl

theorem lastIdxP_none_iff {p : Char → Bool} {l : Chars} :
    lastIdxP p l = none ↔ ∀ c ∈ l, p c = false := by
  induction l with
  | nil => simp [lastIdxP]
  | cons c cs ih =>
    show (match lastIdxP p cs with
      | some i => some (i + 1)
      | none => if p c then some 0 else none) = none ↔ _
    cases h : lastIdxP p cs with
    | some i =>
      simp only [reduceCtorEq, false_iff]
      intro hall
      have h2 : lastIdxP p cs = none := ih.2 fun x hx => hall x (List.mem_cons_of_mem c hx)
      rw [h] at h2
      exact absurd h2 (by simp)
    | none =>
      by_cases hc : p c
      · simp only [if_pos hc, reduceCtorEq, false_iff]
        intro hall
        exact absurd (hall c (List.mem_cons_self c cs)) (by simp [hc])
      · simp only [if_neg hc, true_iff]
        intro x hx
        rcases List.mem_cons.1 hx with rfl | hx
        · exact Bool.eq_false_iff.2 hc
        · exact ih.1 h x hx

theorem lastIdxP_some_spec {p : Char → Bool} :
    ∀ {l : Chars} {i : Nat}, lastIdxP p l = some i →
      i < l.length ∧ p (l.getD i ' ') = true ∧
        ∀ j, i < j → j < l.length → p (l.getD j ' ') = false := by
  intro l
  induction l with
  | nil => intro i h; exact absurd h (by simp [lastIdxP])
  | cons c cs ih =>
    intro i h
    rw [show lastIdxP p (c :: cs) = (match lastIdxP p cs with
      | some k => some (k + 1)
      | none => if p c then some 0 else none) from rfl] at h
    cases hcs : lastIdxP p cs with
    | some k =>
      rw [hcs] at h
      obtain rfl : i = k + 1 := by simpa using h.symm
      obtain ⟨hk1, hk2, hk3⟩ := ih hcs
      refine ⟨by simpa using hk1, by simpa using hk2, ?_⟩
      intro j hj1 hj2
      obtain ⟨j', rfl⟩ : ∃ j', j = j' + 1 := ⟨j - 1, by omega⟩
      simp only [List.getD_cons_succ]
      exact hk3 j' (by omega) (by simpa using hj2)
    | none =>
      rw [hcs] at h
      by_cases hc : p c
      · rw [if_pos hc] at h
        obtain rfl : i = 0 := by simpa using h.symm
        refine ⟨by simp, by simpa using hc, ?_⟩
        intro j hj1 hj2
        obtain ⟨j', rfl⟩ : ∃ j', j = j' + 1 := ⟨j - 1, by omega⟩
        simp only [List.getD_cons_succ]
        have hj2b : j' < cs.length := by simpa using hj2
        rw [List.getD_eq_getElem _ _ hj2b]
        exact lastIdxP_none_iff.1 hcs _ (List.getElem_mem hj2b)
      · rw [if_neg hc] at h
        exact absurd h (by simp)

theorem lastIdxP_getLast {p : Char → Bool} {l : Chars} (hne : ∀ c ∈ l, p c = false) :
    lastIdxP p l = none := lastIdxP_none_iff.2 hne

/-- The key structural fact: `splitext (P ++ Q ++ '.' :: e) = (P ++ Q,
'.' :: e)` whenever the block `Q` just before the dot is non-empty and
free of dots and separators, and the candidate extension body `e` is free
of dots and separators. -/
theorem splitext_PQe (P Q e : Chars)
    (hQ : ∀ c ∈ Q, c ≠ '.' ∧ isSep c = false) (hQne : Q ≠ [])
    (he : ∀ c ∈ e, c ≠ '.' ∧ isSep c = false) :
    splitext (P ++ Q ++ ('.' :: e)) = (P ++ Q, '.' :: e) := by
  have hedot : ∀ c ∈ e, (c == '.') = false := fun c hc =>
    beq_eq_false_iff_ne.2 (he c hc).1
  have hQdot : ∀ c ∈ Q, (c == '.') = false := fun c hc =>
    beq_eq_false_iff_ne.2 (hQ c hc).1
  have hdot_dote : lastIdxP (fun c => c == '.') ('.' :: e) = some 0 := by
    show (match lastIdxP (fun c => c == '.') e with
      | some i => some (i + 1)
      | none => if ('.' == '.') then some 0 else none) = some 0
    rw [lastIdxP_getLast hedot]
    simp
  have hdot : lastIdxP (fun c => c == '.') (P ++ Q ++ ('.' :: e))
      = some ((P ++ Q).length) := by
    rw [lastIdxP_append, hdot_dote]
    simp
  have hsep_dote : lastIdxP isSep ('.' :: e) = none := by
    refine lastIdxP_getLast ?_
    intro c hc
    rcases List.mem_cons.1 hc with rfl | hc
    · decide
    · exact (he c hc).2
  have hsep : lastIdxP isSep (P ++ Q ++ ('.' :: e)) = lastIdxP isSep P := by
    rw [lastIdxP_append, hsep_dote, lastIdxP_append, lastIdxP_getLast fun c hc => (hQ c hc).2]
  obtain ⟨q, Q', rfl⟩ : ∃ q Q', Q = q :: Q' := by
    cases Q with
    | nil => exact absurd rfl hQne
    | cons q Q' => exact ⟨q, Q', rfl⟩
  have hgetP : (P ++ (q :: Q') ++ ('.' :: e)).getD P.length ' ' = q := by
    rw [List.append_assoc, List.getD_append_right _ _ _ _ (Nat.le_refl _),
      Nat.sub_self]
    rfl
  have hlen : P.length < (P ++ (q :: Q')).length := by
    simp
  have hcond : ∀ s : Nat, s ≤ P.length →
      ((List.range' s ((P ++ (q :: Q')).length - s)).any
        fun k => (P ++ (q :: Q') ++ ('.' :: e)).getD k ' ' != '.') = true := by
    intro s hs
    refine List.any_eq_true.2 ⟨P.length, ?_, ?_⟩
    · rw [List.mem_range'_1]
      omega
    · rw [hgetP]
      exact bne_iff_ne.2 (hQ q (List.mem_cons_self q Q')).1
  have htake : (P ++ (q :: Q') ++ ('.' :: e)).take (P ++ (q :: Q')).length
      = P ++ (q :: Q') := List.take_left _ _
  have hdrop : (P ++ (q :: Q') ++ ('.' :: e)).drop (P ++ (q :: Q')).length
      = '.' :: e := List.drop_left _ _
  unfold splitext
  rw [hdot]
  dsimp only
  rw [hsep]
  cases hk : lastIdxP isSep P with
  | none =>
    dsimp only
    rw [if_pos ⟨by omega, hcond 0 (by omega)⟩, htake, hdrop]
  | some k =>
    have hkP := (lastIdxP_some_spec hk).1
    dsimp only
    rw [if_pos ⟨Nat.succ_le_of_lt (Nat.lt_trans hkP hlen), hcond (k + 1) hkP⟩, htake, hdrop]

theorem splitext_snd_shape (p : Chars) :
    (splitext p).2 = [] ∨
      ∃ e, (splitext p).2 = '.' :: e ∧ ∀ c ∈ e, c ≠ '.' ∧ isSep c = false := by
  unfold splitext
  cases hdot : lastIdxP (fun c => c == '.') p with
  | none => exact Or.inl rfl
  | some d =>
    obtain ⟨hdlt, hdc, hafter⟩ := lastIdxP_some_spec hdot
    have hdrop : p.drop d = p.getD d ' ' :: p.drop (d + 1) := by
      rw [List.getD_eq_getElem _ _ hdlt]
      exact List.drop_eq_getElem_cons hdlt
    have hdc2 : p.getD d ' ' = '.' := by simpa using hdc
    have hmain : ∀ c ∈ p.drop (d + 1), c ≠ '.' := by
      intro c hc
      obtain ⟨t, ht, hct⟩ := List.getElem_of_mem hc
      rw [List.getElem_drop] at hct
      have hb : d + 1 + t < p.length := by
        have := ht
        simp only [List.length_drop] at this
        omega
      have := hafter (d + 1 + t) (by omega) hb
      rw [List.getD_eq_getElem _ _ hb, hct] at this
      simpa using this
    cases hsep : lastIdxP isSep p with
    | none =>
      have hnosep : ∀ c ∈ p, isSep c = false := lastIdxP_none_iff.1 hsep
      dsimp only
      split
      · refine Or.inr ⟨p.drop (d + 1), ?_, ?_⟩
        · show p.drop d = _
          rw [hdrop, hdc2]
        · intro c hc
          exact ⟨hmain c hc, hnosep c (List.mem_of_mem_drop hc)⟩
      · exact Or.inl rfl
    | some k =>
      obtain ⟨hk1, _, hk3⟩ := lastIdxP_some_spec hsep
      dsimp only
      split
      case isTrue h =>
        refine Or.inr ⟨p.drop (d + 1), ?_, ?_⟩
        · show p.drop d = _
          rw [hdrop, hdc2]
        · intro c hc
          obtain ⟨t, ht, hct⟩ := List.getElem_of_mem hc
          rw [List.getElem_drop] at hct
          have hb : d + 1 + t < p.length := by
            have := ht
            simp only [List.length_drop] at this
            omega
          have hsk := hk3 (d + 1 + t) (by omega) hb
          rw [List.getD_eq_getElem _ _ hb, hct] at hsk
          exact ⟨hmain c hc, hsk⟩
      case isFalse h => exact Or.inl rfl

theorem toNat_ofNat_valid {n : Nat} (h : n.isValidChar) : (Char.ofNat n).toNat = n := by
  rw [Char.ofNat, dif_pos h]
  rfl

theorem toLower_plain {c : Char} (hd : c ≠ '.') (hs : isSep c = false) :
    Char.toLower c ≠ '.' ∧ isSep (Char.toLower c) = false := by
  unfold Char.toLower
  dsimp only
  split
  case isTrue h =>
    have hv : (c.toNat + 32).isValidChar := Or.inl (by omega)
    have ht : (Char.ofNat (c.toNat + 32)).toNat = c.toNat + 32 := toNat_ofNat_valid hv
    have h46 : ('.' : Char).toNat = 46 := rfl
    have h47 : ('/' : Char).toNat = 47 := rfl
    constructor
    · intro he
      have h2 := congrArg Char.toNat he
      rw [ht, h46] at h2
      omega
    · show (Char.ofNat (c.toNat + 32) == '/') = false
      refine beq_eq_false_iff_ne.2 ?_
      intro he
      have h2 := congrArg Char.toNat he
      rw [ht, h47] at h2
      omega
  case isFalse h => exact ⟨hd, hs⟩

theorem lowerL_plain {e : Chars} (he : ∀ c ∈ e, c ≠ '.' ∧ isSep c = false) :
    ∀ c ∈ lowerL e, c ≠ '.' ∧ isSep c = false := by
  intro c hc
  obtain ⟨a, ha, rfl⟩ := List.mem_map.1 hc
  exact toLower_plain (he a ha).1 (he a ha).2

theorem plain_mp3 : ∀ c ∈ ("mp3").data, c ≠ '.' ∧ isSep c = false := by decide

theorem plain_pad4 (n : Nat) : ∀ c ∈ pad4 n, c ≠ '.' ∧ isSep c = false := by
  intro c hc
  rcases List.mem_append.1 hc with h | h
  · have hc0 : c = '0' := List.eq_of_mem_replicate h
    subst hc0
    decide
  · obtain ⟨d, hd, rfl⟩ := natChars_digits c h
    exact ⟨(digitChar_plain hd).1, (digitChar_plain hd).2⟩

theorem plain_row : ∀ c ∈ ("_row").data, c ≠ '.' ∧ isSep c = false := by decide

theorem plain_paren1 : ∀ c ∈ (" (").data, c ≠ '.' ∧ isSep c = false := by decide

theorem plain_paren2 : ∀ c ∈ (")").data, c ≠ '.' ∧ isSep c = false := by decide

theorem plain_rowpad (rowIdx : Nat) :
    ∀ c ∈ ("_row").data ++ pad4 (rowIdx + 1), c ≠ '.' ∧ isSep c = false := by
  intro c hc
  rcases List.mem_append.1 hc with h | h
  · exact plain_row c h
  · exact plain_pad4 _ c h

theorem rowpad_ne_nil (rowIdx : Nat) : ("_row").data ++ pad4 (rowIdx + 1) ≠ [] := by
  intro h
  have h2 := congrArg List.length h
  rw [List.length_append, List.length_nil] at h2
  have h4 : (("_row").data).length = 4 := by decide
  omega

/-- The artifact extension always has the form `'.' :: e` with a dot- and
separator-free body. -/
theorem artifactExt_shape (dld : Chars) :
    ∃ e2, artifactExt dld = '.' :: e2 ∧ ∀ c ∈ e2, c ≠ '.' ∧ isSep c = false := by
  unfold artifactExt
  rcases splitext_snd_shape dld with h | ⟨e, he, hee⟩
  · rw [h]
    exact ⟨("mp3").data, by decide, plain_mp3⟩
  · rw [he]
    have hlow : lowerL ('.' :: e) = '.' :: lowerL e := by
      show Char.toLower '.' :: _ = _
      rfl
    rw [hlow]
    simp only [List.isEmpty_cons]
    exact ⟨lowerL e, rfl, lowerL_plain hee⟩

theorem joinP_prefix (dirD name : Chars) (h : name.head? ≠ some '/') :
    ∃ Pd, joinP dirD name = Pd ++ name := by
  unfold joinP
  rw [if_neg h]
  split
  · exact ⟨dirD, rfl⟩
  · exact ⟨dirD ++ ['/'], by simp⟩

theorem targetName_head (sheet : Chars) (hs : ∀ c ∈ sheet, isSep c = false)
    (rest : Chars) (hr : rest.head? = some '_') :
    (sheet ++ rest).head? ≠ some '/' := by
  cases sheet with
  | nil =>
    simp only [List.nil_append]
    rw [hr]
    decide
  | cons c cs =>
    simp only [List.cons_append, List.head?_cons]
    intro he
    have hc : c = '/' := by simpa using he
    have := hs c (List.mem_cons_self c cs)
    subst hc
    simp [isSep] at this

theorem computeTarget0_split (dirD sheet : Chars) (hs : ∀ c ∈ sheet, isSep c = false)
    (rowIdx : Nat) :
    ∃ P, computeTarget0 dirD sheet rowIdx
        = (P ++ (("_row").data ++ pad4 (rowIdx + 1))) ++ ('.' :: ("mp3").data) ∧
      splitext (computeTarget0 dirD sheet rowIdx)
        = (P ++ (("_row").data ++ pad4 (rowIdx + 1)), '.' :: ("mp3").data) := by
  have hhead : (sheet ++ ("_row").data ++ pad4 (rowIdx + 1) ++ (".mp3").data).head?
      ≠ some '/' := by
    have := targetName_head sheet hs
      (("_row").data ++ pad4 (rowIdx + 1) ++ (".mp3").data) rfl
    simpa [List.append_assoc] using this
  obtain ⟨Pd, hPd⟩ := joinP_prefix dirD _ hhead
  have heq : computeTarget0 dirD sheet rowIdx
      = ((Pd ++ sheet) ++ (("_row").data ++ pad4 (rowIdx + 1))) ++ ('.' :: ("mp3").data) := by
    unfold computeTarget0
    rw [hPd]
    simp [List.append_assoc]
  refine ⟨Pd ++ sheet, heq, ?_⟩
  rw [heq]
  exact splitext_PQe (Pd ++ sheet) _ _ (plain_rowpad rowIdx) (rowpad_ne_nil rowIdx) plain_mp3

theorem adjustExt_target0 (dirD sheet : Chars) (hs : ∀ c ∈ sheet, isSep c = false)
    (rowIdx : Nat) (dld : Chars) :
    ∃ P, adjustExt (computeTarget0 dirD sheet rowIdx) dld
        = (P ++ (("_row").data ++ pad4 (rowIdx + 1))) ++ artifactExt dld := by
  obtain ⟨P, hP1, hP2⟩ := computeTarget0_split dirD sheet hs rowIdx
  refine ⟨P, ?_⟩
  unfold adjustExt
  rw [hP2]
  dsimp only
  have hlowmp3 : lowerL ('.' :: ("mp3").data) = '.' :: ("mp3").data := by decide
  rw [hlowmp3]
  split
  · rfl
  case isFalse h =>
    rw [not_not] at h
    rw [hP1, h]

theorem renameTarget_snd (fsL : List Chars) (dirD sheet : Chars) (rowIdx : Nat) (dld : Chars)
    (hs : ∀ c ∈ sheet, isSep c = false) :
    (splitext (renameTarget fsL dirD sheet rowIdx dld)).2 = artifactExt dld := by
  obtain ⟨P, hP⟩ := adjustExt_target0 dirD sheet hs rowIdx dld
  obtain ⟨e2, he2, he2p⟩ := artifactExt_shape dld
  set Q := ("_row").data ++ pad4 (rowIdx + 1) with hQ
  have hQp : ∀ c ∈ Q, c ≠ '.' ∧ isSep c = false := plain_rowpad rowIdx
  have hQne : Q ≠ [] := rowpad_ne_nil rowIdx
  have ht1 : adjustExt (computeTarget0 dirD sheet rowIdx) dld
      = P ++ Q ++ ('.' :: e2) := by
    rw [hP, he2]
  have hsplit1 : splitext (adjustExt (computeTarget0 dirD sheet rowIdx) dld)
      = (P ++ Q, '.' :: e2) := by
    rw [ht1]
    exact splitext_PQe P Q e2 hQp hQne he2p
  have hbe : (P ++ Q) ++ ('.' :: e2) = adjustExt (computeTarget0 dirD sheet rowIdx) dld :=
    ht1.symm
  unfold renameTarget
  rw [hsplit1]
  dsimp only
  obtain ⟨k0, hk0, hk0n⟩ := resolveTarget_suffFuel fsL (P ++ Q) ('.' :: e2) _ hbe
  obtain ⟨r, k, hr, hk, hrk, hrn, hmin⟩ :=
    resolveTarget_go fsL (P ++ Q) ('.' :: e2) (fsL.length + 1) 1 _ ⟨k0, hk0, hk0n⟩
  rw [hr]
  show (splitext r).2 = artifactExt dld
  cases k with
  | zero =>
    have : r = adjustExt (computeTarget0 dirD sheet rowIdx) dld := hrk
    rw [this, hsplit1, he2]
  | succ k' =>
    have hrc : r = cand (P ++ Q) ('.' :: e2) (1 + k') := hrk
    have hre : r = P ++ (Q ++ (" (").data ++ natChars (1 + k') ++ (")").data)
        ++ ('.' :: e2) := by
      rw [hrc]
      unfold cand
      simp [List.append_assoc]
    have hplain : ∀ c ∈ Q ++ (" (").data ++ natChars (1 + k') ++ (")").data,
        c ≠ '.' ∧ isSep c = false := by
      intro c hc
      simp only [List.append_assoc, List.mem_append] at hc
      rcases hc with h | h | h | h
      · exact hQp c h
      · exact plain_paren1 c h
      · obtain ⟨d, hd, rfl⟩ := natChars_digits c h
        exact digitChar_plain hd
      · exact plain_paren2 c h
    have hne : Q ++ (" (").data ++ natChars (1 + k') ++ (")").data ≠ [] := by
      intro h
      have h2 := congrArg List.length h
      simp only [List.length_append, List.length_nil] at h2
      have h3 : 0 < Q.length := List.length_pos.2 hQne
      omega
    rw [hre, splitext_PQe P _ e2 hplain hne he2p, he2]

/-- C9: for every successfully processed row, the final rename target's
extension (as split off by `os.path.splitext`) equals `artifactExt` of the
downloaded artifact — the artifact's extension lower-cased, with `.mp3`
substituted when the artifact name has no extension.  The only assumption
is that the shard's stem contains no path separator (true of any real file
stem). -/
theorem C9_extension_matches (fsL : List Chars) (dirD sheet : Chars) (rowIdx : Nat) (dld : Chars)
    (hs : ∀ c ∈ sheet, isSep c = false) :
    (splitext (renameTarget fsL dirD sheet rowIdx dld)).2 = artifactExt dld :=
  renameTarget_snd fsL dirD sheet rowIdx dld hs

/-- Witness for C9: an upper-case `.WAV` artifact yields a `.wav` target
extension, on a concrete worker state. -/
theorem C9_extension_matches_witness :
    (∀ c ∈ ("file1").data, isSep c = false) ∧
    (splitext (renameTarget [] ("d").data ("file1").data 0 ("dl.WAV").data)).2
      = artifactExt (("dl.WAV").data) :=
  ⟨by decide, C9_extension_matches [] ("d").data ("file1").data 0 ("dl.WAV").data (by decide)⟩

/-! ### Worker-loop invariants (`process_excel`) -/

theorem getD_set_ne {α : Type} (l : List α) (i j : Nat) (a : α) (d : α) (h : i ≠ j) :
    (l.set i a).getD j d = l.getD j d := by
  simp [List.getD_eq_getElem?_getD, List.getElem?_set_ne h]

theorem stepRow_blank {dirD sheet : Chars} {env : Nat → Except Unit Chars}
    {st : WState} {idx : Nat}
    (hb : isBlankCell ((st.1.getD idx []).getD 0 none) = true) :
    stepRow dirD sheet env st idx = (st, .skipped) := by
  unfold stepRow
  rw [hb]
  rfl

theorem stepRow_error {dirD sheet : Chars} {env : Nat → Except Unit Chars}
    {st : WState} {idx : Nat}
    (hb : isBlankCell ((st.1.getD idx []).getD 0 none) = false)
    (he : env idx = .error ()) :
    stepRow dirD sheet env st idx = (st, .failed) := by
  unfold stepRow
  rw [hb, he]
  rfl

theorem stepRow_cells {dirD sheet : Chars} {env : Nat → Except Unit Chars}
    {st : WState} {idx : Nat} (i j : Nat) (hj : j ≠ outColIndex) :
    (((stepRow dirD sheet env st idx).1.1.getD i []).getD j none)
      = ((st.1.getD i []).getD j none) := by
  unfold stepRow
  split
  · rfl
  · cases henv : env idx with
    | error e => rfl
    | ok dld =>
      dsimp only
      by_cases hii : idx = i
      · subst hii
        by_cases hlt : idx < st.1.length
        · have hrow : (st.1.set idx ((st.1.getD idx []).set outColIndex
              (some (renameTarget (dld :: st.2) dirD sheet idx dld)))).getD idx []
              = (st.1.getD idx []).set outColIndex
                (some (renameTarget (dld :: st.2) dirD sheet idx dld)) := by
            rw [List.getD_eq_getElem?_getD, List.getElem?_set_self hlt]
            rfl
          rw [hrow, getD_set_ne _ _ _ _ _ (fun he => hj he.symm)]
        · rw [List.set_eq_of_length_le (by omega)]
      · rw [getD_set_ne _ _ _ _ _ hii]

theorem stepRow_rows_length {dirD sheet : Chars} {env : Nat → Except Unit Chars}
    {st : WState} {idx : Nat} :
    (stepRow dirD sheet env st idx).1.1.length = st.1.length := by
  unfold stepRow
  split
  · rfl
  · cases henv : env idx with
    | error e => rfl
    | ok dld => simp

theorem stepRow_row_ne {dirD sheet : Chars} {env : Nat → Except Unit Chars}
    {st : WState} {idx i : Nat} (h : idx ≠ i) :
    (stepRow dirD sheet env st idx).1.1.getD i [] = st.1.getD i [] := by
  unfold stepRow
  split
  · rfl
  · cases henv : env idx with
    | error e => rfl
    | ok dld =>
      dsimp only
      simp [List.getD_eq_getElem?_getD, List.getElem?_set_ne h]

theorem runRows_cells (dirD sheet : Chars) (env : Nat → Except Unit Chars) :
    ∀ (idxs : List Nat) (st : WState) (i j : Nat), j ≠ outColIndex →
      (((runRows dirD sheet env idxs st).1.1.getD i []).getD j none)
        = ((st.1.getD i []).getD j none) := by
  intro idxs
  induction idxs with
  | nil => intro st i j hj; rfl
  | cons idx rest ih =>
    intro st i j hj
    show (((runRows dirD sheet env rest (stepRow dirD sheet env st idx).1).1.1.getD i
        []).getD j none) = _
    rw [ih _ i j hj, stepRow_cells i j hj]

theorem runRows_outLength (dirD sheet : Chars) (env : Nat → Except Unit Chars) :
    ∀ (idxs : List Nat) (st : WState),
      (runRows dirD sheet env idxs st).2.length = idxs.length := by
  intro idxs
  induction idxs with
  | nil => intro st; rfl
  | cons idx rest ih =>
    intro st
    show ((stepRow dirD sheet env st idx).2
        :: (runRows dirD sheet env rest (stepRow dirD sheet env st idx).1).2).length = _
    rw [List.length_cons, ih]
    rfl

theorem runRows_allFail (dirD sheet : Chars) (env : Nat → Except Unit Chars) :
    ∀ (idxs : List Nat) (st : WState),
      (∀ idx ∈ idxs, isBlankCell ((st.1.getD idx []).getD 0 none) = false ∧
        env idx = .error ()) →
      runRows dirD sheet env idxs st = (st, idxs.map fun _ => Outcome.failed) := by
  intro idxs
  induction idxs with
  | nil => intro st _; rfl
  | cons idx rest ih =>
    intro st h
    have hstep : stepRow dirD sheet env st idx = (st, .failed) :=
      stepRow_error (h idx (List.mem_cons_self idx rest)).1
        (h idx (List.mem_cons_self idx rest)).2
    show ((runRows dirD sheet env rest (stepRow dirD sheet env st idx).1).1,
      (stepRow dirD sheet env st idx).2
        :: (runRows dirD sheet env rest (stepRow dirD sheet env st idx).1).2) = _
    rw [hstep]
    dsimp only
    rw [ih st fun x hx => h x (List.mem_cons_of_mem idx hx)]
    rfl

theorem runRows_blank_skipped (dirD sheet : Chars) (env : Nat → Except Unit Chars) :
    ∀ (idxs : List Nat) (st : WState) (k : Nat), k < idxs.length →
      isBlankCell ((st.1.getD (idxs.getD k 0) []).getD 0 none) = true →
      (runRows dirD sheet env idxs st).2.getD k .failed = .skipped := by
  intro idxs
  induction idxs with
  | nil =>
    intro st k hk
    exact absurd hk (by simp)
  | cons idx rest ih =>
    intro st k hk hb
    show ((stepRow dirD sheet env st idx).2
        :: (runRows dirD sheet env rest (stepRow dirD sheet env st idx).1).2).getD k _
      = _
    cases k with
    | zero =>
      have hstep : stepRow dirD sheet env st idx = (st, .skipped) := stepRow_blank hb
      rw [hstep]
      rfl
    | succ k =>
      rw [List.getD_cons_succ]
      refine ih _ k (by simpa using hk) ?_
      rw [stepRow_cells _ 0 (by decide)]
      exact hb

theorem runRows_blankRow_untouched (dirD sheet : Chars) (env : Nat → Except Unit Chars) :
    ∀ (idxs : List Nat) (st : WState) (i : Nat),
      isBlankCell ((st.1.getD i []).getD 0 none) = true →
      (runRows dirD sheet env idxs st).1.1.getD i [] = st.1.getD i [] := by
  intro idxs
  induction idxs with
  | nil => intro st i _; rfl
  | cons idx rest ih =>
    intro st i hb
    show (runRows dirD sheet env rest (stepRow dirD sheet env st idx).1).1.1.getD i []
      = _
    have hrow : (stepRow dirD sheet env st idx).1.1.getD i [] = st.1.getD i [] := by
      by_cases hii : idx = i
      · subst hii
        rw [stepRow_blank hb]
      · exact stepRow_row_ne hii
    have hb2 : isBlankCell (((stepRow dirD sheet env st idx).1.1.getD i []).getD 0 none)
        = true := by
      rw [hrow]; exact hb
    rw [ih _ i hb2, hrow]

theorem getD_map_nil {α β : Type} (g : List α → List β) (rows : List (List α))
    (i : Nat) (hg : g [] = []) : (rows.map g).getD i [] = g (rows.getD i []) := by
  rw [List.getD_eq_getElem?_getD (rows.map g), List.getElem?_map,
    List.getD_eq_getElem?_getD rows]
  cases rows[i]? with
  | none => simp [hg]
  | some r => rfl

theorem insertAt_getD0 (v : Cell) (r : List Cell) :
    (insertAt 1 v r).getD 0 none = r.getD 0 none := by
  cases r with
  | nil => rfl
  | cons a t => rfl

theorem insertOutputCol_rows_length (f : Frame) :
    (insertOutputCol f).rows.length = f.rows.length := by
  unfold insertOutputCol
  split
  · simp
  · rfl

theorem insertOutputCol_col0 (f : Frame) (i : Nat) :
    ((insertOutputCol f).rows.getD i []).getD 0 none
      = (f.rows.getD i []).getD 0 none := by
  unfold insertOutputCol
  split
  · dsimp only
    rw [getD_map_nil _ _ i rfl]
    exact insertAt_getD0 _ _
  · rfl

/-- C3: any exception during a row (modelled by the oracle failing on that
row) is caught and turns only that row into a Failed outcome; in
particular, when every row's conversion fails, the shard completes with
exactly one Failed outcome per row, the table and the worker directory are
left untouched, and the output spreadsheet is still written to the
suffix-appended sibling name — the failures never escape the row loop. -/
theorem C3_failures_are_row_local (excelName dirD : Chars) (f : Frame)
    (env : Nat → Except Unit Chars) (fs0 : List Chars)
    (h : ∀ i, i < f.rows.length →
      isBlankCell ((f.rows.getD i []).getD 0 none) = false ∧ env i = .error ()) :
    process_excel excelName dirD f env fs0
      = ⟨insertOutputCol f, fs0, List.replicate f.rows.length .failed,
         pathStem excelName ++ OUTPUT_SUFFIX⟩ := by
  unfold process_excel
  have hall : ∀ idx ∈ List.range (insertOutputCol f).rows.length,
      isBlankCell (((insertOutputCol f).rows.getD idx []).getD 0 none) = false ∧
        env idx = .error () := by
    intro idx hidx
    have hlt : idx < f.rows.length := by
      have := List.mem_range.1 hidx
      rwa [insertOutputCol_rows_length] at this
    refine ⟨?_, (h idx hlt).2⟩
    rw [insertOutputCol_col0]
    exact (h idx hlt).1
  rw [runRows_allFail dirD (pathStem excelName) env _ _ hall]
  dsimp only
  rw [List.map_const', List.length_range, insertOutputCol_rows_length]

/-- Witness for C3: a one-column two-row sheet with an always-failing
conversion oracle completes with two Failed rows and the sibling output
name. -/
theorem C3_failures_are_row_local_witness :
    (∀ i, i < frame1.rows.length →
      isBlankCell ((frame1.rows.getD i []).getD 0 none) = false ∧ envFail i = .error ()) ∧
    process_excel ("a.xlsx").data ("d").data frame1 envFail []
      = ⟨insertOutputCol frame1, [], List.replicate frame1.rows.length .failed,
         pathStem (("a.xlsx").data) ++ OUTPUT_SUFFIX⟩ :=
  ⟨by
    intro i hi
    have h2 : frame1.rows.length = 2 := rfl
    rw [h2] at hi
    interval_cases i <;> exact ⟨rfl, rfl⟩,
   C3_failures_are_row_local ("a.xlsx").data ("d").data frame1 envFail []
    (by
      intro i hi
      have h2 : frame1.rows.length = 2 := rfl
      rw [h2] at hi
      interval_cases i <;> exact ⟨rfl, rfl⟩)⟩

/-- C6 (amended): in the browser variant every blank or whitespace-only
row is skipped — the step leaves the whole worker state untouched and
records a Skipped outcome, and after the full run the row (in particular
its output cell) is exactly as the column-insertion step left it; the API
variant, however, only drops missing (`NaN`) cells: every present string,
including whitespace-only ones, is kept in the work list. -/
theorem C6_amended_blank_handling :
    (∀ (dirD sheet : Chars) (env : Nat → Except Unit Chars) (st : WState) (idx : Nat),
      isBlankCell ((st.1.getD idx []).getD 0 none) = true →
      stepRow dirD sheet env st idx = (st, .skipped)) ∧
    (∀ (excelName dirD : Chars) (f : Frame) (env : Nat → Except Unit Chars)
        (fs0 : List Chars) (i : Nat), i < f.rows.length →
      isBlankCell ((f.rows.getD i []).getD 0 none) = true →
      (process_excel excelName dirD f env fs0).outcomes.getD i .failed = .skipped ∧
      (process_excel excelName dirD f env fs0).frame.rows.getD i []
        = (insertOutputCol f).rows.getD i []) ∧
    (∀ (col : List (Option Chars)) (s : Chars), some s ∈ col → s ∈ loadSentences col) := by
  refine ⟨fun _ _ _ _ _ hb => stepRow_blank hb, ?_, ?_⟩
  · intro excelName dirD f env fs0 i hi hb
    have hi2 : i < (insertOutputCol f).rows.length := by
      rwa [insertOutputCol_rows_length]
    have hb2 : isBlankCell (((insertOutputCol f).rows.getD i []).getD 0 none) = true := by
      rw [insertOutputCol_col0]; exact hb
    constructor
    · show (runRows dirD (pathStem excelName) env
        (List.range (insertOutputCol f).rows.length)
        ((insertOutputCol f).rows, fs0)).2.getD i .failed = .skipped
      refine runRows_blank_skipped _ _ _ _ _ i (by simpa using hi2) ?_
      have hr : (List.range (insertOutputCol f).rows.length).getD i 0 = i := by
        rw [List.getD_eq_getElem _ _ (by simpa using hi2)]
        simp
      rw [hr]
      exact hb2
    · show (runRows dirD (pathStem excelName) env
        (List.range (insertOutputCol f).rows.length)
        ((insertOutputCol f).rows, fs0)).1.1.getD i [] = _
      exact runRows_blankRow_untouched _ _ _ _ _ i hb2
  · intro col s hs
    exact List.mem_filterMap.2 ⟨some s, hs, rfl⟩

/-- Counterexample for C6 as stated: the API variant keeps the
whitespace-only sentence `" "` in its work list (`dropna` only removes
missing cells), and with a successful response the call writes an artifact
for it — so not every whitespace-only row is skipped. -/
theorem C6_whitespace_cex :
    ¬ C6_claimStatement ∧
    generate_audio b64dec1 respJsonAudio ((" ").data) 1
      = (.tru, some (sentenceFile 1, [65, 66, 67])) := by
  constructor
  · intro hcl
    have h2 := hcl.2 [some ((" ").data)] ((" ").data) (by decide)
    exact absurd h2 (by decide)
  · decide

/-- C7 (amended): the `output_filename` column is inserted at index 1 only
when the sheet has at most one column, in which case input column 0 is
preserved; when the sheet already has two or more columns nothing is
inserted and the filenames are written straight into the existing column
at index 1 — every column other than index 1 is preserved, but column 1
itself is overwritten for successful rows. -/
theorem C7_amended_column_handling (excelName dirD : Chars) (f : Frame)
    (env : Nat → Except Unit Chars) (fs0 : List Chars) :
    (f.cols.length ≤ 1 →
      (process_excel excelName dirD f env fs0).frame.cols = insertAt 1 OUTPUT_COL f.cols ∧
      ∀ i, ((process_excel excelName dirD f env fs0).frame.rows.getD i []).getD 0 none
        = (f.rows.getD i []).getD 0 none) ∧
    (2 ≤ f.cols.length →
      (process_excel excelName dirD f env fs0).frame.cols = f.cols ∧
      ∀ i j, j ≠ 1 →
        ((process_excel excelName dirD f env fs0).frame.rows.getD i []).getD j none
          = (f.rows.getD i []).getD j none) := by
  constructor
  · intro hle
    constructor
    · show (insertOutputCol f).cols = _
      unfold insertOutputCol
      rw [if_pos (show f.cols.length ≤ outColIndex from hle)]
      rfl
    · intro i
      show ((runRows dirD (pathStem excelName) env
          (List.range (insertOutputCol f).rows.length)
          ((insertOutputCol f).rows, fs0)).1.1.getD i []).getD 0 none = _
      rw [runRows_cells _ _ _ _ _ i 0 (by decide)]
      exact insertOutputCol_col0 f i
  · intro hge
    have hnid : insertOutputCol f = f := by
      unfold insertOutputCol
      rw [if_neg (by show ¬ f.cols.length ≤ outColIndex; unfold outColIndex; omega)]
    constructor
    · show (insertOutputCol f).cols = _
      rw [hnid]
    · intro i j hj
      show ((runRows dirD (pathStem excelName) env
          (List.range (insertOutputCol f).rows.length)
          ((insertOutputCol f).rows, fs0)).1.1.getD i []).getD j none = _
      rw [runRows_cells _ _ _ _ _ i j (by unfold outColIndex; exact hj), hnid]

/-- Witness for C7's amended statement: a two-column frame keeps its
header row and its non-filename cells. -/
theorem C7_amended_column_handling_witness :
    (2 ≤ frame2.cols.length) ∧
    ((process_excel ("b.xlsx").data ("d").data frame2 envOk []).frame.cols = frame2.cols ∧
      ∀ i j, j ≠ 1 →
        ((process_excel ("b.xlsx").data ("d").data frame2 envOk []).frame.rows.getD i
          []).getD j none = (frame2.rows.getD i []).getD j none) :=
  ⟨by decide,
    (C7_amended_column_handling ("b.xlsx").data ("d").data frame2 envOk []).2 (by decide)⟩

/-- Counterexample for C7 as stated: on a fresh two-column sheet the
filename is written into the pre-existing second column, overwriting its
data cell. -/
theorem C7_overwrite_cex : ¬ C7_claimStatement := by
  intro h
  have h2 := h ("b.xlsx").data ("d").data frame2 envOk [] 0 1 (by decide) (by decide)
  exact absurd h2 (by decide)

/-- C8: the shard's result is written to a new file whose name appends the
fixed suffix `_with_filenames.xlsx` to the input's stem, and this output
name never equals the input spreadsheet's name — the input file is not
written by processing. -/
theorem C8_sibling_output (excelName dirD : Chars) (f : Frame)
    (env : Nat → Except Unit Chars) (fs0 : List Chars) :
    (process_excel excelName dirD f env fs0).outExcel
        = pathStem excelName ++ OUTPUT_SUFFIX ∧
    (process_excel excelName dirD f env fs0).outExcel ≠ excelName := by
  refine ⟨rfl, ?_⟩
  show pathStem excelName ++ OUTPUT_SUFFIX ≠ excelName
  have hSUF : (OUTPUT_SUFFIX).length = 20 := by decide
  unfold pathStem
  cases hdot : lastIdxP (fun c => c == '.') excelName with
  | none =>
    dsimp only
    intro h
    have h2 := congrArg List.length h
    rw [List.length_append, hSUF] at h2
    omega
  | some i =>
    dsimp only
    split
    case isTrue hcond =>
      intro h
      obtain ⟨hlt, hdc, -⟩ := lastIdxP_some_spec hdot
      have hsplit : excelName.take i ++ excelName.drop i = excelName :=
        List.take_append_drop i excelName
      have h2 : OUTPUT_SUFFIX = excelName.drop i :=
        List.append_cancel_left (h.trans hsplit.symm)
      have hd : excelName.drop i = excelName.getD i ' ' :: excelName.drop (i + 1) := by
        rw [List.getD_eq_getElem _ _ hlt]
        exact List.drop_eq_getElem_cons hlt
      have hdc2 : excelName.getD i ' ' = '.' := by simpa using hdc
      rw [hd, hdc2] at h2
      have hh : OUTPUT_SUFFIX.head? = some '.' := by rw [h2]; rfl
      exact absurd hh (by decide)
    case isFalse hcond =>
      intro h
      have h2 := congrArg List.length h
      rw [List.length_append, hSUF] at h2
      omega

/-! ### C5: the download-completion detector -/

theorem foldl_mtime_spec :
    ∀ (xs : List DirFile) (x : DirFile),
      (xs.foldl (fun a b => if a.mtime < b.mtime then b else a) x) ∈ x :: xs ∧
      x.mtime ≤ (xs.foldl (fun a b => if a.mtime < b.mtime then b else a) x).mtime ∧
      ∀ g ∈ xs, g.mtime ≤ (xs.foldl (fun a b => if a.mtime < b.mtime then b else a) x).mtime := by
  intro xs
  induction xs with
  | nil =>
    intro x
    exact ⟨List.mem_cons_self x [], Nat.le_refl _, by simp⟩
  | cons y ys ih =>
    intro x
    show ((ys.foldl _ (if x.mtime < y.mtime then y else x)) ∈ _) ∧ _
    obtain ⟨hmem, hle, hall⟩ := ih (if x.mtime < y.mtime then y else x)
    have hx : x.mtime ≤ (if x.mtime < y.mtime then y else x).mtime := by
      split <;> omega
    have hy : y.mtime ≤ (if x.mtime < y.mtime then y else x).mtime := by
      split <;> omega
    refine ⟨?_, Nat.le_trans hx hle, ?_⟩
    · rcases List.mem_cons.1 hmem with h | h
      · rw [h]
        split
        · exact List.mem_cons_of_mem _ (List.mem_cons_self y ys)
        · exact List.mem_cons_self x _
      · exact List.mem_cons_of_mem _ (List.mem_cons_of_mem _ h)
    · intro g hg
      rcases List.mem_cons.1 hg with h | h
      · rw [h]; exact Nat.le_trans hy hle
      · exact hall g h

theorem pyMax_spec {l : List DirFile} {f : DirFile} (h : pyMax l = some f) :
    f ∈ l ∧ ∀ g ∈ l, g.mtime ≤ f.mtime := by
  cases l with
  | nil => exact absurd h (by simp [pyMax])
  | cons x xs =>
    have hf : xs.foldl (fun a b => if a.mtime < b.mtime then b else a) x = f := by
      simpa [pyMax] using h
    obtain ⟨hmem, hle, hall⟩ := foldl_mtime_spec xs x
    rw [hf] at hmem hle hall
    refine ⟨hmem, ?_⟩
    intro g hg
    rcases List.mem_cons.1 hg with hgx | hgx
    · rw [hgx]; exact hle
    · exact hall g hgx

theorem pyMax_eq_none {l : List DirFile} : pyMax l = none ↔ l = [] := by
  cases l <;> simp [pyMax]

theorem waitGo_none (dir : Nat → List DirFile) (obs : List Chars) :
    ∀ (fuel t : Nat),
      (∀ u, t ≤ u → u < t + fuel → newStable obs (dir u) = []) →
      waitGo dir obs fuel t = .error () := by
  intro fuel
  induction fuel with
  | zero => intro t _; rfl
  | succ fuel ih =>
    intro t h
    have h0 : newStable obs (dir t) = [] := h t (Nat.le_refl t) (by omega)
    show (match pyMax (newStable obs (dir t)) with
      | some f => Except.ok f
      | none => waitGo dir obs fuel (t + 1)) = _
    rw [h0]
    exact ih (t + 1) fun u hu1 hu2 => h u (by omega) (by omega)

theorem waitGo_finds (dir : Nat → List DirFile) (obs : List Chars) :
    ∀ (fuel t t0 : Nat), t ≤ t0 → t0 < t + fuel →
      newStable obs (dir t0) ≠ [] →
      (∀ u, t ≤ u → u < t0 → newStable obs (dir u) = []) →
      ∃ f, waitGo dir obs fuel t = .ok f ∧
        pyMax (newStable obs (dir t0)) = some f := by
  intro fuel
  induction fuel with
  | zero => intro t t0 h1 h2 _ _; omega
  | succ fuel ih =>
    intro t t0 h1 h2 hne hmin
    by_cases ht : t0 = t
    · subst ht
      cases hm : pyMax (newStable obs (dir t0)) with
      | none => exact absurd (pyMax_eq_none.1 hm) hne
      | some f =>
        refine ⟨f, ?_, rfl⟩
        show (match pyMax (newStable obs (dir t0)) with
          | some f => Except.ok f
          | none => waitGo dir obs fuel (t0 + 1)) = _
        rw [hm]
    · have h0 : newStable obs (dir t) = [] := hmin t (Nat.le_refl t) (by omega)
      obtain ⟨f, hf, hm⟩ := ih (t + 1) t0 (by omega) (by omega) hne
        fun u hu1 hu2 => hmin u (by omega) hu2
      refine ⟨f, ?_, hm⟩
      show (match pyMax (newStable obs (dir t)) with
        | some g => Except.ok g
        | none => waitGo dir obs fuel (t + 1)) = Except.ok f
      rw [h0]
      exact hf

theorem newStable_props {obs : List Chars} {cur : List DirFile} {f : DirFile}
    (h : f ∈ newStable obs cur) :
    f ∈ cur ∧ f.name ∉ obs ∧ crdownload.isSuffixOf f.name = false := by
  obtain ⟨hmem, hp⟩ := List.mem_filter.1 h
  simp only [Bool.and_eq_true, Bool.not_eq_true'] at hp
  refine ⟨hmem, ?_, hp.2⟩
  intro hin
  have : obs.contains f.name = true := List.elem_eq_true_of_mem hin
  rw [this] at hp
  exact absurd hp.1 (by simp)

/-- C5: the completion detector snapshots the directory when the wait
begins, then polls once a second; a poll's candidates are exactly the
files absent from the snapshot and not carrying the transient
`.crdownload` suffix.  If no poll up to the ceiling sees a candidate the
wait raises a timeout error; otherwise the first poll with candidates
returns one of them — new relative to the snapshot, not in-progress, and
of maximal modification time among that poll's candidates. -/
theorem C5_completion_detector (dir : Nat → List DirFile) (timeout : Nat) :
    ((∀ t, 1 ≤ t → t ≤ timeout →
        newStable ((dir 0).map DirFile.name) (dir t) = []) →
      wait_for_file dir timeout = .error ()) ∧
    (∀ t0, 1 ≤ t0 → t0 ≤ timeout →
      newStable ((dir 0).map DirFile.name) (dir t0) ≠ [] →
      (∀ t, 1 ≤ t → t < t0 → newStable ((dir 0).map DirFile.name) (dir t) = []) →
      ∃ f, wait_for_file dir timeout = .ok f ∧
        f ∈ newStable ((dir 0).map DirFile.name) (dir t0) ∧
        (∀ g ∈ newStable ((dir 0).map DirFile.name) (dir t0), g.mtime ≤ f.mtime) ∧
        f.name ∉ (dir 0).map DirFile.name ∧
        crdownload.isSuffixOf f.name = false) := by
  constructor
  · intro h
    exact waitGo_none dir _ timeout 1 fun u hu1 hu2 => h u hu1 (by omega)
  · intro t0 h1 h2 hne hmin
    obtain ⟨f, hf, hmax⟩ :=
      waitGo_finds dir ((dir 0).map DirFile.name) timeout 1 t0 h1 (by omega) hne
        fun u hu1 hu2 => hmin u hu1 hu2
    obtain ⟨hmem, hall⟩ := pyMax_spec hmax
    obtain ⟨-, hnotin, hncr⟩ := newStable_props hmem
    exact ⟨f, hf, hmem, hall, hnotin, hncr⟩

/-- Witness for C5: with an empty snapshot and a single stable file
appearing at second 1, the detector returns that file. -/
theorem C5_completion_detector_witness :
    ∃ f, wait_for_file dirTrace1 2 = .ok f ∧
      f ∈ newStable ((dirTrace1 0).map DirFile.name) (dirTrace1 1) ∧
      (∀ g ∈ newStable ((dirTrace1 0).map DirFile.name) (dirTrace1 1),
        g.mtime ≤ f.mtime) ∧
      f.name ∉ (dirTrace1 0).map DirFile.name ∧
      crdownload.isSuffixOf f.name = false :=
  (C5_completion_detector dirTrace1 2).2 1 (by decide) (by decide) (by decide)
    (by intro t ht1 ht2; omega)

/-! ### C4 and C10: the API conversion client -/

/-- Every run of `generate_audio` either returns `True` having written the
artifact `sentence_{n:04d}.mp3`, or returns a falsy value (`False` or
`None`) having written nothing. -/
theorem generate_audio_shape (b64dec : Chars → Option (List Nat)) (r : ApiResponse)
    (text : Chars) (n : Nat) :
    (∃ b, generate_audio b64dec r text n = (.tru, some (sentenceFile n, b))) ∨
    generate_audio b64dec r text n = (.fls, none) ∨
    generate_audio b64dec r text n = (.nne, none) := by
  unfold generate_audio
  repeat' split
  all_goals first
    | (left; exact ⟨_, rfl⟩)
    | (right; left; rfl)
    | (right; right; rfl)

/-- C4 (amended): on a 200 response with non-empty body the decode order
is: if the body parses as JSON, a dict containing `audioContent` that
base64-decodes wins (a failing decode or a non-dict value becomes `False`
via the outer handler), while a dict *without* `audioContent` falls off
the end of the function and is reported as a row failure (`None`) without
the remaining decodes being attempted; only when the body is not valid
JSON is the whole body tried as base64, falling back to writing the raw
bytes — and that fallback pair always succeeds. -/
theorem C4_amended_decode_priority (b64dec : Chars → Option (List Nat))
    (r : ApiResponse) (text : Chars) (n : Nat) (hexn : r.exn = false)
    (hst : r.status = 200) (hne : (pyStrip r.text).isEmpty = false) :
    (r.jsonVal = none →
      generate_audio b64dec r text n
        = (.tru, some (sentenceFile n, r.b64Text.getD r.content))) ∧
    (∀ fields v, r.jsonVal = some (.dict fields) →
      lookupKey (("audioContent").data) fields = some v →
      generate_audio b64dec r text n
        = (match b64dec v with
           | some bytes => (.tru, some (sentenceFile n, bytes))
           | none => (.fls, none))) ∧
    (∀ fields, r.jsonVal = some (.dict fields) →
      lookupKey (("audioContent").data) fields = none →
      generate_audio b64dec r text n = (.nne, none)) ∧
    (∀ hk, r.jsonVal = some (.arrOrStr hk) →
      generate_audio b64dec r text n = (if hk then (.fls, none) else (.nne, none))) ∧
    (r.jsonVal = some .prim → generate_audio b64dec r text n = (.fls, none)) := by
  refine ⟨?_, ?_, ?_, ?_, ?_⟩
  · intro hj
    cases hb : r.b64Text <;> simp [generate_audio, hexn, hst, hne, hj, hb]
  · intro fields v hj hl
    cases hbd : b64dec v <;> simp [generate_audio, hexn, hst, hne, hj, hl, hbd]
  · intro fields hj hl
    simp [generate_audio, hexn, hst, hne, hj, hl]
  · intro hk hj
    cases hk <;> simp [generate_audio, hexn, hst, hne, hj]
  · intro hj
    simp [generate_audio, hexn, hst, hne, hj]

/-- Witness for C4's amended statement: a 200 response whose body is a
JSON object without `audioContent` is reported as a failure (`None`),
without the base64 or raw fallbacks running. -/
theorem C4_amended_decode_priority_witness :
    generate_audio b64dec1 respDictNoKey (("t").data) 3 = (.nne, none) :=
  (C4_amended_decode_priority b64dec1 respDictNoKey (("t").data) 3 rfl rfl
      (by decide)).2.2.1 [((("a").data), (("1").data))] rfl (by decide)

/-- Counterexample for C4 as stated: the response body `{"a": 1}` is valid
JSON without `audioContent`; the raw-bytes fallback (which cannot fail)
is never attempted and the call is reported as a row failure, refuting
"only if all three fail is the sentence reported as a row failure". -/
theorem C4_priority_cex : ¬ C4_claimStatement := by
  intro h
  have h2 := h b64dec1 respDictNoKey (("t").data) 1 rfl rfl (by decide)
  exact absurd h2 (by decide)

/-- C10: `MicMonsterAPI.generate_audio` is total over every oracle
outcome (the outer handler converts every internal failure into a falsy
value): the sentence text influences neither the result nor the artifact
name, the call is truthy exactly when it wrote the file
`sentence_{n:04d}.mp3`, every failure source (transport exception,
non-200 status, empty body) is falsy with no write, and a successful
write replaces whatever file of that deterministic name already existed. -/
theorem C10_api_call_totality (b64dec : Chars → Option (List Nat)) (r : ApiResponse)
    (t1 t2 : Chars) (n : Nat) (fs : Chars → Option (List Nat)) (old : List Nat) :
    generate_audio b64dec r t1 n = generate_audio b64dec r t2 n ∧
    ((generate_audio b64dec r t1 n).1 = .tru ↔
      ∃ b, (generate_audio b64dec r t1 n).2 = some (sentenceFile n, b)) ∧
    (∀ nm b, (generate_audio b64dec r t1 n).2 = some (nm, b) → nm = sentenceFile n) ∧
    ((r.exn = true ∨ r.status ≠ 200 ∨ (pyStrip r.text).isEmpty = true) →
      isTruthy (generate_audio b64dec r t1 n).1 = false ∧
      (generate_audio b64dec r t1 n).2 = none) ∧
    (fs (sentenceFile n) = some old →
      ∀ b, (generate_audio b64dec r t1 n).2 = some (sentenceFile n, b) →
        applyWrite fs (generate_audio b64dec r t1 n).2 (sentenceFile n) = some b) := by
  refine ⟨rfl, ?_, ?_, ?_, ?_⟩
  · rcases generate_audio_shape b64dec r t1 n with ⟨b, hb⟩ | hb | hb
    · rw [hb]
      exact ⟨fun _ => ⟨b, rfl⟩, fun _ => rfl⟩
    · rw [hb]
      exact ⟨fun h => absurd h (by decide), fun ⟨b, h⟩ => absurd h (by simp)⟩
    · rw [hb]
      exact ⟨fun h => absurd h (by decide), fun ⟨b, h⟩ => absurd h (by simp)⟩
  · intro nm b hb
    rcases generate_audio_shape b64dec r t1 n with ⟨b', hb'⟩ | hb' | hb' <;> rw [hb'] at hb
    · have := congrArg (fun o => o.map Prod.fst) hb
      simpa using this.symm
    · exact absurd hb (by simp)
    · exact absurd hb (by simp)
  · rintro (hx | hx | hx)
    · simp [generate_audio, hx, isTruthy]
    · cases hexn : r.exn
      · simp [generate_audio, hexn, hx, isTruthy]
      · simp [generate_audio, hexn, isTruthy]
    · cases hexn : r.exn
      · by_cases hst : r.status = 200
        · simp [generate_audio, hexn, hst, hx, isTruthy]
        · simp [generate_audio, hexn, hst, isTruthy]
      · simp [generate_audio, hexn, isTruthy]
  · intro hfs b hb
    rw [hb]
    simp [applyWrite]

/-- Witness for C10: a successful call on a filesystem already holding
`sentence_0001.mp3` replaces its content. -/
theorem C10_api_call_totality_witness :
    applyWrite fs1 (generate_audio b64dec1 respJsonAudio (("x").data) 1).2
      (sentenceFile 1) = some [65, 66, 67] :=
  (C10_api_call_totality b64dec1 respJsonAudio (("x").data) (("y").data) 1 fs1
    [9]).2.2.2.2 (by decide) [65, 66, 67] (by decide)

/-- C2 (amended): the browser variant's rename loop always lands on a
fresh, distinct path via the ` (k)` counters and never overwrites an
existing file; the API variant's artifact write, by contrast, goes
straight to the deterministic name `sentence_{n:04d}.mp3` and replaces
any file already bearing it. -/
theorem C2_collision_amended :
    (∀ (existing : List Chars) (target : Chars),
      ∃ r, resolveTarget existing (existing.length + 1)
          (splitext target).1 (splitext target).2 target 1 = some r ∧
        r ∉ existing ∧
        (target ∉ existing → r = target) ∧
        (target ∈ existing → r ≠ target ∧
          ∃ k, 1 ≤ k ∧ r = cand (splitext target).1 (splitext target).2 k)) ∧
    (∀ (b64dec : Chars → Option (List Nat)) (r : ApiResponse) (text : Chars) (n : Nat)
        (fs : Chars → Option (List Nat)) (b : List Nat),
      (generate_audio b64dec r text n).2 = some (sentenceFile n, b) →
      applyWrite fs (generate_audio b64dec r text n).2 (sentenceFile n) = some b) :=
  ⟨C2_collision_resolution,
   fun _ _ _ _ fs b hb => by rw [hb]; simp [applyWrite]⟩

/-- Witness for C2's amended statement: resolving the colliding target
`a.mp3`, and a concrete overwriting API write. -/
theorem C2_collision_amended_witness :
    (∃ r, resolveTarget [("a.mp3").data] (([("a.mp3").data] : List Chars).length + 1)
        (splitext ("a.mp3").data).1 (splitext ("a.mp3").data).2 ("a.mp3").data 1 = some r ∧
      r ∉ [("a.mp3").data] ∧
      (("a.mp3").data ∉ [("a.mp3").data] → r = ("a.mp3").data) ∧
      (("a.mp3").data ∈ [("a.mp3").data] → r ≠ ("a.mp3").data ∧
        ∃ k, 1 ≤ k ∧ r = cand (splitext ("a.mp3").data).1 (splitext ("a.mp3").data).2 k)) ∧
    applyWrite fs1 (generate_audio b64dec1 respJsonAudio (("x").data) 1).2
      (sentenceFile 1) = some [65, 66, 67] :=
  ⟨C2_collision_amended.1 [("a.mp3").data] (("a.mp3").data),
   C2_collision_amended.2 b64dec1 respJsonAudio (("x").data) 1 fs1 [65, 66, 67]
     (by decide)⟩

/-- Counterexample for C2 as stated: with `sentence_0001.mp3` already on
disk holding `[9]`, a successful API call writes the same name and the
old content is gone — an existing file is overwritten by writing an
artifact. -/
theorem C2_overwrite_cex : ¬ C2_claimStatement := by
  intro h
  have h2 := h.2 b64dec1 respJsonAudio (("x").data) 1 fs1 (sentenceFile 1) (by decide)
  exact absurd h2 (by decide)

/-- Witness for C6's amended statement: a whitespace-only row is recorded
as Skipped and its row (including the inserted output cell) is untouched. -/
theorem C6_amended_blank_handling_witness :
    (process_excel ("a.xlsx").data ("d").data frameB envOk []).outcomes.getD 0 .failed
        = .skipped ∧
    (process_excel ("a.xlsx").data ("d").data frameB envOk []).frame.rows.getD 0 []
        = (insertOutputCol frameB).rows.getD 0 [] :=
  C6_amended_blank_handling.2.1 ("a.xlsx").data ("d").data frameB envOk [] 0
    (by decide) (by decide)

/-- Witness for C8 at a concrete shard. -/
theorem C8_sibling_output_witness :
    (process_excel ("a.xlsx").data ("d").data frame1 envFail []).outExcel
        = pathStem (("a.xlsx").data) ++ OUTPUT_SUFFIX ∧
    (process_excel ("a.xlsx").data ("d").data frame1 envFail []).outExcel
        ≠ ("a.xlsx").data :=
  C8_sibling_output ("a.xlsx").data ("d").data frame1 envFail []

end MicMonster
